import Mathlib

/-!
Verification of the input-parsing layer of a minimal interactive shell
(`src/command_call.rs`): the tokenizer (quote and escape handling) and the
call builder (semicolon chunking, flag/argument separation).

Strings are modelled as `List Char`; the Rust functions are embedded as
recursive Lean functions over that representation, following the source
line by line.
-/

namespace Shell

/-- Rust `char::is_whitespace`: the Unicode `White_Space` property,
listed by code point. Used by the tokenizer's word-boundary rule and by
`str::trim`. -/
def isWhitespace (c : Char) : Bool :=
  let n := c.toNat
  (0x09 ≤ n && n ≤ 0x0D) || n == 0x20 || n == 0x85 || n == 0xA0 ||
  n == 0x1680 || (0x2000 ≤ n && n ≤ 0x200A) || n == 0x2028 || n == 0x2029 ||
  n == 0x202F || n == 0x205F || n == 0x3000

/-- Rust `str::trim`: strip leading and trailing whitespace. -/
def trim (s : List Char) : List Char :=
  ((s.dropWhile isWhitespace).reverse.dropWhile isWhitespace).reverse

/-- Rust `str::split(';')`: split at every occurrence of the separator,
keeping empty fields (so `"" → [""]` and `";;" → ["", "", ""]`). -/
def splitOnChar (sep : Char) : List Char → List (List Char)
  | [] => [[]]
  | c :: cs =>
    if c = sep then [] :: splitOnChar sep cs
    else (c :: (splitOnChar sep cs).headD []) :: (splitOnChar sep cs).tail

/-- `handle_escape` from `command_call.rs`: inside double quotes only
`"`, `\`, `$` are escapable (backslash dropped), any other character keeps
the backslash; outside quotes the escaped character is always literal. -/
def handle_escape (c : Char) (in_double_quote : Bool) : List Char :=
  if in_double_quote then
    if c = '"' ∨ c = '\\' ∨ c = '$' then [c] else ['\\', c]
  else [c]

/-- The tokenizer's transient scan state: completed tokens, the word under
construction, the two quote modes and the pending-escape flag. -/
structure TokState where
  tokens : List (List Char)
  current : List Char
  inSingle : Bool
  inDouble : Bool
  escaped : Bool
deriving Repr, DecidableEq

/-- One iteration of the `while let Some(c) = chars.next()` loop in
`tokenize`: dispatch on the pending escape, backslash, the two quote
characters, whitespace, and the default append. -/
def tokStep (st : TokState) (c : Char) : TokState :=
  if st.escaped then
    { st with current := st.current ++ handle_escape c st.inDouble, escaped := false }
  else if c = '\\' ∧ st.inSingle = false then
    { st with escaped := true }
  else if c = '\'' ∧ st.inDouble = false then
    { st with inSingle := !st.inSingle }
  else if c = '"' ∧ st.inSingle = false then
    { st with inDouble := !st.inDouble }
  else if isWhitespace c = true ∧ st.inSingle = false ∧ st.inDouble = false then
    if st.current = [] then st
    else { st with tokens := st.tokens ++ [st.current], current := [] }
  else
    { st with current := st.current ++ [c] }

/-- End of input in `tokenize`: push the final token if it is non-empty. -/
def flush (st : TokState) : List (List Char) :=
  st.tokens ++ (if st.current = [] then [] else [st.current])

/-- The scan loop of `tokenize`, consuming the remaining characters. -/
def tokenizeAux (st : TokState) : List Char → List (List Char)
  | [] => flush st
  | c :: cs => tokenizeAux (tokStep st c) cs

/-- The initial scan state of `tokenize`: no tokens, empty accumulator,
all modes off. -/
def initState : TokState := ⟨[], [], false, false, false⟩

/-- `tokenize` from `command_call.rs`. -/
def tokenize (input : List Char) : List (List Char) :=
  tokenizeAux initState input

/-- The loop body of `separate_flags_from_args`, threading the `flags`
and `args` accumulators. -/
def sepStep (fa : List (List Char) × List (List Char)) (token : List Char) :
    List (List Char) × List (List Char) :=
  if token.head? = some '-' ∧ token ≠ ['-'] then
    -- Rust `token.len()` is the UTF-8 byte length.
    if (token.map Char.utf8Size).sum > 2 ∧ ¬ token.take 2 = ['-', '-'] then
      (fa.1 ++ (token.drop 1).map (fun c => ['-', c]), fa.2)
    else
      (fa.1 ++ [token], fa.2)
  else
    (fa.1, fa.2 ++ [token])

/-- `separate_flags_from_args` from `command_call.rs`. -/
def separate_flags_from_args (tokens : List (List Char)) :
    List (List Char) × List (List Char) :=
  tokens.foldl sepStep ([], [])

/-- Rust `str::to_lowercase`, modelled character-wise with `Char.toLower`
(the claims only depend on lower-casing being a per-character map). -/
def to_lowercase (s : List Char) : List Char := s.map Char.toLower

/-- `CommandCall` from `command_call.rs`: one parsed invocation. -/
structure CommandCall where
  name : List Char
  flags : List (List Char)
  args : List (List Char)
deriving Repr, DecidableEq

/-- The body of the `filter_map` closure in `parse_line`: trim the chunk,
drop it if empty or token-free, otherwise build the call (the Rust closure
shadows `chunk` with its trimmed form, written out explicitly here). -/
def chunkToCall (chunk : List Char) : Option CommandCall :=
  if trim chunk = [] then none
  else
    match tokenize (trim chunk) with
    | [] => none
    | t :: ts =>
      some ⟨to_lowercase t, (separate_flags_from_args ts).1,
            (separate_flags_from_args ts).2⟩

/-- `parse_line` from `command_call.rs`: split on `;`, build one call per
surviving chunk. -/
def parse_line (input : List Char) : List CommandCall :=
  (splitOnChar ';' input).filterMap chunkToCall

/-! Spec-side companion definitions, written from the claims' words, to be
compared with the embedded source functions. -/

/-- Spec-side splitter for C1: split on maximal runs of whitespace and
discard empty fields. `acc` is the field under construction. -/
def wsSplitAux (acc : List Char) : List Char → List (List Char)
  | [] => if acc = [] then [] else [acc]
  | c :: cs =>
    if isWhitespace c then (if acc = [] then [] else [acc]) ++ wsSplitAux [] cs
    else wsSplitAux (acc ++ [c]) cs

/-- Spec-side splitter for C1: split the input on maximal runs of
whitespace and discard empty fields. -/
def wsSplit (s : List Char) : List (List Char) := wsSplitAux [] s

/-- Spec-side token classification step for C4, following the claim's
case order: `-` alone is an argument; a `--` prefix is a long flag kept
whole; a single `-` with more than two characters is decomposed into one
flag per character; a single `-` with exactly two characters is kept
whole; everything else is a positional argument. Length here is the
character count. -/
def specStep (fa : List (List Char) × List (List Char)) (t : List Char) :
    List (List Char) × List (List Char) :=
  if t = ['-'] then (fa.1, fa.2 ++ [t])
  else if t.take 2 = ['-', '-'] then (fa.1 ++ [t], fa.2)
  else if t.head? = some '-' ∧ 2 < t.length then
    (fa.1 ++ (t.drop 1).map (fun c => ['-', c]), fa.2)
  else if t.head? = some '-' ∧ t.length = 2 then (fa.1 ++ [t], fa.2)
  else (fa.1, fa.2 ++ [t])

/-- Spec-side classification for C4: fold `specStep` over the tokens. -/
def classify_spec (tokens : List (List Char)) :
    List (List Char) × List (List Char) :=
  tokens.foldl specStep ([], [])

/-- Two successive invocations of `parse_line`, modelling one call made
after another; used to state that calls do not affect each other. -/
def runPair (a b : List Char) : List CommandCall × List CommandCall :=
  (parse_line a, parse_line b)

end Shell

namespace Shell

-- Sanity examples mirroring the repository's unit tests.
example : tokenize "ls -la /home".toList =
    ["ls".toList, "-la".toList, "/home".toList] := by decide

example : tokenize ['e','c','h','o',' ','"','h','i',' ','u','"',' ','\'','a',' ','b','\''] =
    [['e','c','h','o'], ['h','i',' ','u'], ['a',' ','b']] := by decide

example : tokenize ['e','c','h','o',' ','\\','"','h','i','\\',' ','w','\\','"'] =
    [['e','c','h','o'], ['"','h','i',' ','w','"']] := by decide

example : parse_line "ls -l; echo hi".toList =
    [⟨"ls".toList, ["-l".toList], []⟩,
     ⟨"echo".toList, [], ["hi".toList]⟩] := by decide

example : parse_line "ls -la /tmp".toList =
    [⟨"ls".toList, ["-l".toList, "-a".toList], ["/tmp".toList]⟩] := by decide

example : parse_line "ls --all /tmp".toList =
    [⟨"ls".toList, ["--all".toList], ["/tmp".toList]⟩] := by decide

/-! Helper lemmas about the tokenizer scan. -/

/-- The scan loop is a left fold of `tokStep` followed by `flush`. -/
theorem tokenizeAux_eq_foldl (cs : List Char) : ∀ st : TokState,
    tokenizeAux st cs = flush (cs.foldl tokStep st) := by
  induction cs with
  | nil => intro st; rfl
  | cons c cs ih => intro st; simp only [tokenizeAux, List.foldl_cons]; exact ih _

/-- A scan step never turns on both quote modes at once. -/
theorem tokStep_exclusive (st : TokState) (c : Char)
    (h : ¬(st.inSingle = true ∧ st.inDouble = true)) :
    ¬((tokStep st c).inSingle = true ∧ (tokStep st c).inDouble = true) := by
  unfold tokStep
  repeat' split
  all_goals simp_all

/-- Scanning any character list preserves quote-mode exclusivity. -/
theorem foldl_tokStep_exclusive (l : List Char) : ∀ st : TokState,
    ¬(st.inSingle = true ∧ st.inDouble = true) →
    ¬((l.foldl tokStep st).inSingle = true ∧ (l.foldl tokStep st).inDouble = true) := by
  induction l with
  | nil => intro st h; exact h
  | cons c l ih => intro st h; exact ih _ (tokStep_exclusive st c h)

/-- A scan step either leaves the emitted tokens alone or appends the
(non-empty) current word. -/
theorem tokStep_tokens (st : TokState) (c : Char) :
    (tokStep st c).tokens = st.tokens ∨
    ((tokStep st c).tokens = st.tokens ++ [st.current] ∧ st.current ≠ []) := by
  unfold tokStep
  repeat' split
  all_goals simp_all

/-- If all tokens emitted so far are non-empty, all tokens in the scan's
result are non-empty. -/
theorem tokenizeAux_mem_ne_nil (cs : List Char) : ∀ st : TokState,
    (∀ w ∈ st.tokens, w ≠ []) → ∀ w ∈ tokenizeAux st cs, w ≠ [] := by
  induction cs with
  | nil =>
    intro st h w hw
    by_cases hcur : st.current = [] <;> simp [tokenizeAux, flush, hcur] at hw
    · exact h w hw
    · rcases hw with hw | hw
      · exact h w hw
      · subst hw; exact hcur
  | cons c cs ih =>
    intro st h w hw
    simp only [tokenizeAux] at hw
    refine ih (tokStep st c) ?_ w hw
    intro v hv
    rcases tokStep_tokens st c with ht | ⟨ht, hcur⟩
    · rw [ht] at hv; exact h v hv
    · rw [ht] at hv
      rcases List.mem_append.1 hv with h1 | h2
      · exact h v h1
      · simp at h2; subst h2; exact hcur

/-- Every word produced by `tokenize` is non-empty. -/
theorem tokenize_mem_ne_nil (input w : List Char) (hw : w ∈ tokenize input) :
    w ≠ [] :=
  tokenizeAux_mem_ne_nil input initState (by simp [initState]) w hw

/-- Inside single-quote mode every character other than the closing quote
is copied verbatim into the current word. -/
theorem tokenizeAux_in_single (w : List Char) : ∀ (st : TokState) (rest : List Char),
    st.inSingle = true → st.escaped = false → (∀ c ∈ w, c ≠ '\'') →
    tokenizeAux st (w ++ rest) =
      tokenizeAux { st with current := st.current ++ w } rest := by
  induction w with
  | nil => intro st rest _ _ _; simp
  | cons c w ih =>
    intro st rest h1 h2 hc
    have hq : c ≠ '\'' := hc c (List.mem_cons_self c w)
    have hw : ∀ x ∈ w, x ≠ '\'' := fun x hx => hc x (List.mem_cons_of_mem c hx)
    have hstep : tokStep st c = { st with current := st.current ++ [c] } := by
      simp [tokStep, h1, h2, hq]
    simp only [List.cons_append, tokenizeAux, hstep]
    refine (ih { st with current := st.current ++ [c] } rest h1 h2 hw).trans ?_
    simp

/-- On input free of quote and backslash characters, the scan agrees with
plain whitespace splitting. -/
theorem tokenizeAux_no_special (cs : List Char) : ∀ st : TokState,
    st.inSingle = false → st.inDouble = false → st.escaped = false →
    (∀ c ∈ cs, c ≠ '\'' ∧ c ≠ '"' ∧ c ≠ '\\') →
    tokenizeAux st cs = st.tokens ++ wsSplitAux st.current cs := by
  induction cs with
  | nil => intro st _ _ _ _; simp [tokenizeAux, flush, wsSplitAux]
  | cons c cs ih =>
    intro st h1 h2 h3 hc
    obtain ⟨hq, hd, hb⟩ := hc c (List.mem_cons_self c cs)
    have hcs : ∀ x ∈ cs, x ≠ '\'' ∧ x ≠ '"' ∧ x ≠ '\\' :=
      fun x hx => hc x (List.mem_cons_of_mem c hx)
    by_cases hws : isWhitespace c
    · by_cases hcur : st.current = []
      · have hstep : tokStep st c = st := by
          simp [tokStep, h1, h2, h3, hq, hd, hb, hws, hcur]
        simp only [tokenizeAux, hstep]
        refine (ih st h1 h2 h3 hcs).trans ?_
        simp [wsSplitAux, hws, hcur]
      · have hstep : tokStep st c =
            { st with tokens := st.tokens ++ [st.current], current := [] } := by
          simp [tokStep, h1, h2, h3, hq, hd, hb, hws, hcur]
        simp only [tokenizeAux, hstep]
        refine (ih { st with tokens := st.tokens ++ [st.current], current := [] }
          h1 h2 h3 hcs).trans ?_
        simp [wsSplitAux, hws, hcur]
    · have hstep : tokStep st c = { st with current := st.current ++ [c] } := by
        simp [tokStep, h1, h2, h3, hq, hd, hb, hws]
      simp only [tokenizeAux, hstep]
      refine (ih { st with current := st.current ++ [c] } h1 h2 h3 hcs).trans ?_
      simp [wsSplitAux, hws]

/-! Helper lemmas about chunking and flag separation. -/

/-- Splitting never yields an empty list of fields. -/
theorem splitOnChar_ne_nil (sep : Char) (s : List Char) :
    splitOnChar sep s ≠ [] := by
  cases s with
  | nil => simp [splitOnChar]
  | cons c cs => simp only [splitOnChar]; split <;> simp

/-- Splitting distributes over an explicit occurrence of the separator. -/
theorem splitOnChar_append (sep : Char) (a b : List Char) :
    splitOnChar sep (a ++ sep :: b) = splitOnChar sep a ++ splitOnChar sep b := by
  induction a with
  | nil => simp [splitOnChar]
  | cons c a ih =>
    by_cases hc : c = sep
    · subst hc; simp [splitOnChar, ih]
    · obtain ⟨h, t, he⟩ := List.exists_cons_of_ne_nil (splitOnChar_ne_nil sep a)
      simp [splitOnChar, hc, ih, he]

/-- `parse_line` distributes over an explicit semicolon. -/
theorem parse_line_append_semi (a b : List Char) :
    parse_line (a ++ ';' :: b) = parse_line a ++ parse_line b := by
  unfold parse_line
  rw [splitOnChar_append, List.filterMap_append]

/-- The source's byte-length classification step agrees with the spec's
character-count classification step on every token. -/
theorem sepStep_eq_specStep (fa : List (List Char) × List (List Char))
    (t : List Char) : sepStep fa t = specStep fa t := by
  rcases t with _ | ⟨c, ts⟩
  · simp [sepStep, specStep]
  by_cases hc : c = '-'
  · subst hc
    rcases ts with _ | ⟨d, ts'⟩
    · simp [sepStep, specStep]
    by_cases hd : d = '-'
    · subst hd
      simp [sepStep, specStep]
    · have hone : ('-' : Char).utf8Size = 1 := by decide
      rcases ts' with _ | ⟨e, ts''⟩
      · by_cases hsz : d.utf8Size ≤ 1
        · have hde : d.utf8Size = 1 := le_antisymm hsz (Char.utf8Size_pos d)
          simp [sepStep, specStep, hd, hone, hde]
        · have h2 : 2 < ((['-', d].map Char.utf8Size)).sum := by
            simp [hone]; omega
          simp [sepStep, specStep, hd, h2]
      · have h1 := Char.utf8Size_pos d
        have h2 := Char.utf8Size_pos e
        simp [sepStep, specStep, hd, hone]
        omega
  · simp [sepStep, specStep, hc]

/-- Folding the source step equals folding the spec step. -/
theorem foldl_sepStep_eq (l : List (List Char)) :
    ∀ fa, l.foldl sepStep fa = l.foldl specStep fa := by
  induction l with
  | nil => intro fa; rfl
  | cons t ts ih =>
    intro fa
    simp only [List.foldl_cons, sepStep_eq_specStep]
    exact ih _

/-- Anatomy of a successful chunk: the trimmed chunk tokenizes to a
non-empty token list, and the call is built from it. -/
theorem chunkToCall_eq_some (chunk : List Char) (call : CommandCall)
    (h : chunkToCall chunk = some call) :
    ∃ t ts, tokenize (trim chunk) = t :: ts ∧
      call = ⟨to_lowercase t, (separate_flags_from_args ts).1,
              (separate_flags_from_args ts).2⟩ := by
  by_cases htrim : trim chunk = []
  · simp [chunkToCall, htrim] at h
  · rcases htok : tokenize (trim chunk) with _ | ⟨t, ts⟩
    · simp [chunkToCall, htrim, htok] at h
    · refine ⟨t, ts, rfl, ?_⟩
      simp only [chunkToCall, htrim, if_false, htok] at h
      exact (Option.some_injective _ h).symm

/-! The claims. -/

/-- C1: on input containing no single-quote, double-quote, or backslash
character, `tokenize` equals splitting on maximal runs of whitespace and
discarding empty fields, so consecutive whitespace never yields an empty
word. -/
theorem tokenize_plain_is_whitespace_split (input : List Char)
    (h : ∀ c ∈ input, c ≠ '\'' ∧ c ≠ '"' ∧ c ≠ '\\') :
    tokenize input = wsSplit input := by
  unfold tokenize wsSplit
  simpa [initState] using tokenizeAux_no_special input initState rfl rfl rfl h

/-- Witness for C1 at the input `a␣␣b`. -/
theorem tokenize_plain_is_whitespace_split_witness :
    (∀ c ∈ ['a', ' ', ' ', 'b'], c ≠ '\'' ∧ c ≠ '"' ∧ c ≠ '\\') ∧
    tokenize ['a', ' ', ' ', 'b'] = wsSplit ['a', ' ', ' ', 'b'] :=
  ⟨by decide, tokenize_plain_is_whitespace_split ['a', ' ', ' ', 'b'] (by decide)⟩

/-- C2: an unescaped backslash outside single quotes consumes the next
character through `handle_escape`: outside double quotes the character is
copied literally and the backslash dropped (so an escaped space does not
split and an escaped quote does not toggle mode); inside double quotes a
backslash before `"`, `\`, or `$` yields that character alone, and before
anything else yields the backslash together with the character. -/
theorem tokenize_escape_resolution :
    (∀ c, handle_escape c false = [c]) ∧
    (∀ c, handle_escape c true =
      if c = '"' ∨ c = '\\' ∨ c = '$' then [c] else ['\\', c]) ∧
    (∀ (st : TokState) (c : Char) (cs : List Char),
      st.escaped = false → st.inSingle = false →
      tokenizeAux st ('\\' :: c :: cs) =
        tokenizeAux { st with current := st.current ++ handle_escape c st.inDouble,
                              escaped := false } cs) ∧
    tokenize ['a', '\\', ' ', 'b'] = [['a', ' ', 'b']] ∧
    tokenize ['\\', '\'', 'a'] = [['\'', 'a']] := by
  refine ⟨fun c => rfl, fun c => rfl, ?_, by decide, by decide⟩
  intro st c cs h1 h2
  have hstep1 : tokStep st '\\' = { st with escaped := true } := by
    simp [tokStep, h1, h2]
  have hstep2 : tokStep { st with escaped := true } c =
      { st with current := st.current ++ handle_escape c st.inDouble,
                escaped := false } := by
    simp [tokStep]
  simp only [tokenizeAux, hstep1, hstep2]

/-- Witness for C2: a backslash-space input resolves to a one-space word. -/
theorem tokenize_escape_resolution_witness :
    tokenize ['\\', ' '] = [[' ']] := by
  have h := tokenize_escape_resolution.2.2.1 initState ' ' [] rfl rfl
  exact h.trans (by decide)

/-- C3: `parse_line` splits at every semicolon, even inside quotes; the
input `echo "a;b"` yields a call named `echo` and a call named `b`. -/
theorem parse_line_splits_inside_quotes :
    (∀ a b : List Char, parse_line (a ++ ';' :: b) = parse_line a ++ parse_line b) ∧
    parse_line ['e', 'c', 'h', 'o', ' ', '"', 'a', ';', 'b', '"'] =
      [⟨['e', 'c', 'h', 'o'], [], [['a']]⟩, ⟨['b'], [], []⟩] :=
  ⟨parse_line_append_semi, by decide⟩

/-- C4: token classification — `-` alone goes to args, a `--` token goes
to flags whole, a single-dash token longer than two characters is
decomposed into one single-character flag per character in order, a
two-character dash token goes to flags whole, and everything else goes to
args in order. -/
theorem separate_flags_matches_classification (tokens : List (List Char)) :
    separate_flags_from_args tokens = classify_spec tokens :=
  foldl_sepStep_eq tokens ([], [])

/-- C5: every produced call has a non-empty name, namely the lowercased
first token of its trimmed chunk; chunks that trim to empty or tokenize
to nothing yield no call, and both the empty line and `;;;` parse to no
calls. -/
theorem parse_line_name_invariant :
    (∀ (input : List Char) (call : CommandCall),
      call ∈ parse_line input → call.name ≠ []) ∧
    (∀ (chunk : List Char) (call : CommandCall), chunkToCall chunk = some call →
      ∃ t ts, tokenize (trim chunk) = t :: ts ∧
        call = ⟨to_lowercase t, (separate_flags_from_args ts).1,
                (separate_flags_from_args ts).2⟩) ∧
    (∀ chunk : List Char, tokenize (trim chunk) = [] → chunkToCall chunk = none) ∧
    parse_line [] = [] ∧
    parse_line [';', ';', ';'] = [] := by
  refine ⟨?_, chunkToCall_eq_some, ?_, by decide, by decide⟩
  · intro input call hcall
    rw [parse_line, List.mem_filterMap] at hcall
    obtain ⟨chunk, _, hc⟩ := hcall
    obtain ⟨t, ts, htok, hcalleq⟩ := chunkToCall_eq_some chunk call hc
    have ht : t ≠ [] :=
      tokenize_mem_ne_nil (trim chunk) t (by rw [htok]; exact List.mem_cons_self t ts)
    subst hcalleq
    simpa [to_lowercase] using ht
  · intro chunk htok
    by_cases htrim : trim chunk = [] <;> simp [chunkToCall, htrim, htok]

/-- Witness for C5 at the input `ls`. -/
theorem parse_line_name_invariant_witness :
    (⟨['l', 's'], [], []⟩ : CommandCall) ∈ parse_line ['l', 's'] ∧
    (⟨['l', 's'], [], []⟩ : CommandCall).name ≠ [] :=
  ⟨by decide, parse_line_name_invariant.1 ['l', 's'] ⟨['l', 's'], [], []⟩ (by decide)⟩

/-- C6: the scan is a fold of `tokStep`; no step, and hence no prefix of
the scan, ever has both quote modes on at once; a single quote seen
inside double quotes is appended literally without toggling, and a
double quote seen inside single quotes is appended literally without
toggling. -/
theorem tokenize_quote_modes_exclusive :
    (∀ (st : TokState) (cs : List Char),
      tokenizeAux st cs = flush (cs.foldl tokStep st)) ∧
    (∀ (st : TokState) (c : Char), ¬(st.inSingle = true ∧ st.inDouble = true) →
      ¬((tokStep st c).inSingle = true ∧ (tokStep st c).inDouble = true)) ∧
    (∀ l : List Char, ¬((l.foldl tokStep initState).inSingle = true ∧
      (l.foldl tokStep initState).inDouble = true)) ∧
    (∀ st : TokState, st.inDouble = true → st.escaped = false →
      tokStep st '\'' = { st with current := st.current ++ ['\''] }) ∧
    (∀ st : TokState, st.inSingle = true → st.escaped = false →
      tokStep st '"' = { st with current := st.current ++ ['"'] }) := by
  refine ⟨fun st cs => tokenizeAux_eq_foldl cs st, tokStep_exclusive,
    fun l => foldl_tokStep_exclusive l initState (by simp [initState]), ?_, ?_⟩
  · intro st h1 h2
    simp [tokStep, h1, h2]
  · intro st h1 h2
    simp [tokStep, h1, h2]

/-- Witness for C6: a quote inside double-quote mode is pushed literally. -/
theorem tokenize_quote_modes_exclusive_witness :
    tokStep ⟨[], [], false, true, false⟩ '\'' = ⟨[], ['\''], false, true, false⟩ := by
  have h := tokenize_quote_modes_exclusive.2.2.2.1 ⟨[], [], false, true, false⟩ rfl rfl
  exact h.trans (by decide)

/-- C7: the scan ends by emitting the accumulator exactly when it is
non-empty; a trailing unresolved backslash contributes no character; an
unterminated single or double quote still yields the accumulated words. -/
theorem tokenize_total_end_of_input :
    (∀ st : TokState, tokenizeAux st [] =
      st.tokens ++ (if st.current = [] then [] else [st.current])) ∧
    (∀ st : TokState, st.inSingle = false → st.escaped = false →
      tokenizeAux st ['\\'] =
        st.tokens ++ (if st.current = [] then [] else [st.current])) ∧
    tokenize ['\'', 'a', 'b'] = [['a', 'b']] ∧
    tokenize ['"', 'x', ' ', 'y'] = [['x', ' ', 'y']] := by
  refine ⟨fun st => rfl, ?_, by decide, by decide⟩
  intro st h1 h2
  have hstep : tokStep st '\\' = { st with escaped := true } := by
    simp [tokStep, h1, h2]
  simp only [tokenizeAux, hstep]
  rfl

/-- Witness for C7: scanning a lone backslash from the initial state
emits nothing. -/
theorem tokenize_total_end_of_input_witness :
    tokenizeAux initState ['\\'] = [] := by
  have h := tokenize_total_end_of_input.2.1 initState rfl rfl
  exact h.trans (by decide)

/-- C8 counterexample: the word consisting of one single-quote character
is produced by tokenizing backslash-quote, yet wrapping it in single
quotes tokenizes to no words at all, not to that word. -/
theorem tokenize_quote_roundtrip_cex :
    ['\''] ∈ tokenize ['\\', '\''] ∧
    tokenize ('\'' :: ['\''] ++ ['\'']) ≠ [['\'']] := by decide

/-- C8 (amended): for every word of `tokenize x` containing no
single-quote character, enclosing it in single quotes and tokenizing
yields exactly that word. -/
theorem tokenize_single_quote_roundtrip (x w : List Char)
    (hw : w ∈ tokenize x) (hq : ∀ c ∈ w, c ≠ '\'') :
    tokenize ('\'' :: w ++ ['\'']) = [w] := by
  have hne : w ≠ [] := tokenize_mem_ne_nil x w hw
  have h0 : tokenize ('\'' :: w ++ ['\'']) =
      tokenizeAux ⟨[], [], true, false, false⟩ (w ++ ['\'']) := rfl
  rw [h0, tokenizeAux_in_single w ⟨[], [], true, false, false⟩ ['\''] rfl rfl hq]
  have h2 : tokStep { TokState.mk [] [] true false false with current := [] ++ w } '\'' =
      ⟨[], [] ++ w, false, false, false⟩ := by
    simp [tokStep]
  simp only [tokenizeAux, h2, flush]
  simp [hne]

/-- Witness for C8 at `x = w = a`. -/
theorem tokenize_single_quote_roundtrip_witness :
    ['a'] ∈ tokenize ['a'] ∧ tokenize ('\'' :: ['a'] ++ ['\'']) = [['a']] :=
  ⟨by decide, tokenize_single_quote_roundtrip ['a'] ['a'] (by decide) (by decide)⟩

/-- C9: `parse_line` is deterministic and stateless across invocations —
in a pair of invocations, each result depends only on its own input and
equals the stand-alone result. -/
theorem parse_line_deterministic (a b₁ b₂ : List Char) :
    (runPair a b₁).1 = parse_line a ∧
    (runPair b₁ a).2 = (runPair b₂ a).2 ∧
    (runPair a b₁).1 = (runPair a b₂).1 :=
  ⟨rfl, rfl, rfl⟩

/-- C10: every word returned by `tokenize` is non-empty; an empty quoted
string contributes no word, so a chunk of only quote characters yields no
tokens and `parse_line` produces no call for it. -/
theorem tokenize_words_nonempty :
    (∀ input w : List Char, w ∈ tokenize input → w ≠ []) ∧
    tokenize ['"', '"'] = [] ∧
    tokenize ['\'', '\''] = [] ∧
    parse_line ['"', '"'] = [] :=
  ⟨tokenize_mem_ne_nil, by decide, by decide, by decide⟩

/-- Witness for C10 at the input `hi`. -/
theorem tokenize_words_nonempty_witness :
    ['h', 'i'] ∈ tokenize ['h', 'i'] ∧ (['h', 'i'] : List Char) ≠ [] :=
  ⟨by decide, tokenize_words_nonempty.1 ['h', 'i'] ['h', 'i'] (by decide)⟩

end Shell
